import Mathlib

set_option maxHeartbeats 1000000

/-!
Shallow embedding of the MVLookup module of the proof-systems repository
(msm/src/mvlookup.rs and msm/src/proof.rs), together with theorems settling
the specification claims about it.

The expression framework, the column enumeration, the sponge and the
commitment scheme are external collaborators of this module; they are
modelled from the specification where needed, and each such definition is
marked by a doc comment starting with the words Modelled from the spec.
-/

/-- Modelled from the spec: the column capability of the surrounding circuit.
The five variants are exactly the ones matched by ProofEvaluations::evaluate
(msm/src/proof.rs lines 79-118) and referenced by the constraint builder. -/
inductive Column where
  | X (i : Nat)
  | LookupPartialSum (i : Nat)
  | LookupAggregation
  | LookupMultiplicity (id : Nat)
  | LookupFixedTable (id : Nat)
deriving DecidableEq, Repr

/-- Modelled from the spec: row selector of a cell access (current or next row). -/
inductive CurrOrNext where
  | Curr
  | Next
deriving DecidableEq, Repr

/-- Modelled from the spec: the crate level constant MAX_SUPPORTED_DEGREE; the
assertion message of combine_lookups (mvlookup.rs line 210) states that the
maximum supported degree is 8. -/
def MAX_SUPPORTED_DEGREE : Nat := 8

/-- MVLookup (mvlookup.rs lines 21-26), one fraction term. The table identity
is identified with its u32 encoding, so it is a natural number here; the
parameter A is a field element on the prover side and an expression on the
constraint side, as in the source. -/
structure MVLookup (A : Type) where
  table_id : Nat
  numerator : A
  value : List A
deriving DecidableEq, Repr

/-- MVLookupWitness (mvlookup.rs lines 86-105): the term columns and the
multiplicity column. -/
structure LookupWitness (F : Type) where
  f : List (List (MVLookup F))
  m : List F

/-- Term of column c at row j; the source indexes f_i[j] directly, which is
always in bounds for a well shaped witness. -/
def termAt {F : Type} [Inhabited F] (c : List (MVLookup F)) (j : Nat) : MVLookup F :=
  c.getD j ⟨0, default, []⟩

/-- Combined value r * x_1 + r^2 * x_2 + ... + r^N * x_N + table_id of one
term, as computed in Env::create (mvlookup.rs lines 445-452): a Horner fold
over the reversed value vector, multiplied by the combiner, plus the table
identity as a field element. -/
def combinedValue {F : Type} [Field F] (r : F) (tid : Nat) (value : List F) : F :=
  (value.reverse.foldl (fun acc y => acc * r + y) 0) * r + (tid : F)

/-- First pass of Env::create (mvlookup.rs lines 435-467): for each row j and
each column i the denominator beta + combined value, produced in row major
order into one single vector, exactly as the source gathers them for the
batched inversion. -/
def denominatorsOf {F : Type} [Field F] [Inhabited F] (domSize : Nat) (r beta : F)
    (f : List (List (MVLookup F))) : List F :=
  (List.range domSize).foldr (fun j acc =>
    (f.map (fun fi =>
      beta + combinedValue r (termAt fi j).table_id (termAt fi j).value)) ++ acc) []

/-- Batched field inversion modelled elementwise: ark batch_inversion inverts
every nonzero entry and leaves zero entries unchanged, which agrees with the
field convention that the inverse of zero is zero. -/
def batchInversion {F : Type} [Field F] (l : List F) : List F :=
  l.map (fun x => x⁻¹)

/-- Push a value at the end of the vector stored at position i of a vector of
vectors, failing exactly where the source indexing into the chunk vectors
panics when i is out of bounds. -/
def pushAt {F : Type} (xs : List (List F)) (i : Nat) (v : F) : Option (List (List F)) :=
  if i < xs.length then some (xs.set i (xs.getD i [] ++ [v])) else none

/-- One term of the second pass of Env::create (mvlookup.rs lines 478-494):
add numerator times the inverted denominator to the row accumulator, advance
the global denominator index, and on a chunk boundary of the global index push
the accumulator into the chunk vector selected by the running chunk index of
the row, then reset the accumulator. The state is (chunk vectors, global
denominator index, chunk index of the row, row accumulator). -/
def termStep {F : Type} [Field F] [Inhabited F] (invDenoms : List F)
    (st : List (List F) × Nat × Nat × F) (t : MVLookup F) :
    Option (List (List F) × Nat × Nat × F) :=
  let acc := st.2.2.2 + t.numerator * invDenoms.getD st.2.1 0
  let di := st.2.1 + 1
  if di % (MAX_SUPPORTED_DEGREE - 2) == 0 then
    (pushAt st.1 st.2.2.1 acc).map (fun sums => (sums, di, st.2.2.1 + 1, 0))
  else
    some (st.1, di, st.2.2.1, acc)

/-- One row of the second pass of Env::create (mvlookup.rs lines 475-498):
reset the chunk index and the row accumulator, fold the term step over the
columns, and push the trailing accumulator when the global denominator index
does not end the row on a chunk boundary. -/
def rowStep {F : Type} [Field F] [Inhabited F] (invDenoms : List F)
    (f : List (List (MVLookup F))) (st : List (List F) × Nat) (j : Nat) :
    Option (List (List F) × Nat) := do
  let stEnd ← f.foldlM (fun st fi => termStep invDenoms st (termAt fi j)) (st.1, st.2, 0, (0 : F))
  if stEnd.2.1 % (MAX_SUPPORTED_DEGREE - 2) == 0 then
    pure (stEnd.1, stEnd.2.1)
  else
    (pushAt stEnd.1 stEnd.2.2.1 stEnd.2.2.2).map (fun sums => (sums, stEnd.2.1))

/-- Number of chunk vectors allocated for one witness (mvlookup.rs lines
421-426): the ceiling of n over MAX_SUPPORTED_DEGREE - 2 computed by cases on
the remainder. -/
def nChunksOf (n : Nat) : Nat :=
  if n % (MAX_SUPPORTED_DEGREE - 2) == 0 then
    n / (MAX_SUPPORTED_DEGREE - 2)
  else
    n / (MAX_SUPPORTED_DEGREE - 2) + 1

/-- Chunked partial sum evaluation vectors of one witness (mvlookup.rs lines
416-501). The result is none exactly when the source panics with an index out
of bounds while pushing into the chunk vectors. -/
def lookupTermsEvalsOne {F : Type} [Field F] [Inhabited F] (domSize : Nat)
    (r beta : F) (f : List (List (MVLookup F))) : Option (List (List F)) := do
  let invDenoms := batchInversion (denominatorsOf domSize r beta f)
  let res ← (List.range domSize).foldlM (rowStep invDenoms f)
    (List.replicate (nChunksOf f.length) [], 0)
  pure res.1

/-- Direct unchunked sum over the rows and terms of one witness: for each row
the sum over all term columns of numerator divided by beta plus the combined
value, summed over the full domain. This is the reference quantity of the
specification for the chunking and for the final zero sum assertion. -/
def directSumTotal {F : Type} [Field F] [Inhabited F] (domSize : Nat) (r beta : F)
    (f : List (List (MVLookup F))) : F :=
  ((List.range domSize).map (fun j =>
    (f.map (fun fi =>
      (termAt fi j).numerator *
        (beta + combinedValue r (termAt fi j).table_id (termAt fi j).value)⁻¹)).sum)).sum

/-- Witness used to exhibit the chunk bookkeeping defect: four term columns
(three lookups of the value zero with numerator one, plus the fixed table
column with numerator minus three) over a domain of size two. -/
def bugF : List (List (MVLookup ℚ)) :=
  [ List.replicate 2 ⟨1, 1, [0]⟩,
    List.replicate 2 ⟨1, 1, [0]⟩,
    List.replicate 2 ⟨1, 1, [0]⟩,
    List.replicate 2 ⟨1, -3, [0]⟩ ]

/-- Modelled from the spec: the two challenge terms used by the constraint
builder (the joint combiner and beta). -/
inductive ChallengeTerm where
  | JointCombiner
  | Beta
deriving DecidableEq, Repr

/-- Modelled from the spec: the algebraic expression capability (atoms,
literal field constants, named challenge terms, ring operations and a degree
query) supplied by the kimchi expression framework, which lives outside the
given sources; it is modelled as a free syntax tree. -/
inductive E (F : Type) where
  | lit (c : F)
  | challenge (c : ChallengeTerm)
  | cell (col : Column) (row : CurrOrNext)
  | add (a b : E F)
  | sub (a b : E F)
  | mul (a b : E F)
deriving DecidableEq, Repr

/-- Modelled from the spec: reference to the current row of a column. -/
def curr_cell {F : Type} (col : Column) : E F :=
  E.cell col CurrOrNext.Curr

/-- Modelled from the spec: reference to the next row of a column. -/
def next_cell {F : Type} (col : Column) : E F :=
  E.cell col CurrOrNext.Next

/-- Modelled from the spec: the degree query of the expression capability,
with cells of degree one and constants of degree zero, as used by the
assertion of combine_lookups. -/
def E.degree {F : Type} : E F → Nat
  | .lit _ => 0
  | .challenge _ => 0
  | .cell _ _ => 1
  | .add a b => max a.degree b.degree
  | .sub a b => max a.degree b.degree
  | .mul a b => a.degree + b.degree

/-- Assignment of values to cells and to the two challenges, used to give
meaning to expressions. -/
structure Assignment (F : Type) where
  cellVal : Column → CurrOrNext → F
  joint : F
  beta : F

/-- Evaluation of an expression under an assignment. -/
def E.eval {F : Type} [Field F] (env : Assignment F) : E F → F
  | .lit c => c
  | .challenge .JointCombiner => env.joint
  | .challenge .Beta => env.beta
  | .cell col row => env.cellVal col row
  | .add a b => a.eval env + b.eval env
  | .sub a b => a.eval env - b.eval env
  | .mul a b => a.eval env * b.eval env

/-- Syntactic combined value of one lookup term (mvlookup.rs lines 201-207):
the Horner fold of the reversed value vector by the joint combiner, multiplied
by the joint combiner. -/
def combinedExpr {F : Type} [Field F] (x : MVLookup (E F)) : E F :=
  E.mul
    (x.value.reverse.foldl
      (fun acc y => E.add (E.mul acc (E.challenge ChallengeTerm.JointCombiner)) y)
      (E.lit 0))
    (E.challenge ChallengeTerm.JointCombiner)

/-- Syntactic denominator beta + combined value + table id of one lookup term
(mvlookup.rs lines 198-214). -/
def denominatorExpr {F : Type} [Field F] (x : MVLookup (E F)) : E F :=
  E.add (E.add (E.challenge ChallengeTerm.Beta) (combinedExpr x)) (E.lit (x.table_id : F))

/-- Degree assertion of combine_lookups (mvlookup.rs line 210), checked for
the combined value of every lookup term. -/
def combineOk {F : Type} [Field F] (lookups : List (MVLookup (E F))) : Bool :=
  lookups.all (fun x => (combinedExpr x).degree == 1)

/-- Left reduction of a list of expressions by addition, with the zero literal
for the empty list, as reduce followed by unwrap_or in the source
(mvlookup.rs lines 237-238). -/
def reduceAdd {F : Type} [Field F] : List (E F) → E F
  | [] => E.lit 0
  | x :: xs => xs.foldl E.add x

/-- Expression built by combine_lookups (mvlookup.rs lines 183-240): the
current cell of the target column multiplied by all denominators, minus the
sum over the terms of the numerator multiplied by all other denominators. -/
def combine_lookups_expr {F : Type} [Field F] (column : Column)
    (lookups : List (MVLookup (E F))) : E F :=
  E.sub
    ((lookups.map denominatorExpr).foldl (fun acc x => E.mul acc x) (curr_cell column))
    (reduceAdd (lookups.enum.map (fun p =>
      (lookups.map denominatorExpr).enum.foldl
        (fun acc q => if p.1 == q.1 then acc else E.mul acc q.2) p.2.numerator)))

/-- combine_lookups (mvlookup.rs lines 183-240), with the degree assertion
modelled as failure of the construction. -/
def combine_lookups {F : Type} [Field F] (column : Column)
    (lookups : List (MVLookup (E F))) : Option (E F) :=
  if combineOk lookups then some (combine_lookups_expr column lookups) else none

/-- Synthetic lookup term appended for each table by constraint_lookups
(mvlookup.rs lines 250-254): the numerator is the multiplicity column of the
table and the single value is its fixed table column. -/
def tableLookup {F : Type} (id : Nat) : MVLookup (E F) :=
  ⟨id, curr_cell (Column.LookupMultiplicity id), [curr_cell (Column.LookupFixedTable id)]⟩

/-- Structural helper for chunksOf: the fuel argument is at least the list
length, and each step consumes at least one element, so the fuel exhaustion
arm is never reached for a positive chunk size. -/
def chunksOfAux {A : Type} (d : Nat) : Nat → List A → List (List A)
  | _, [] => []
  | 0, l => [l]
  | fuel + 1, x :: xs => (x :: xs).take d :: chunksOfAux d fuel (xs.drop (d - 1))

/-- Chunks of consecutive elements of size at most d, as the Rust slice method
chunks; the degenerate case d = 0 is never used by the sources. -/
def chunksOf {A : Type} (d : Nat) (l : List A) : List (List A) :=
  chunksOfAux d l.length l

/-- Aggregation recurrence constraint (mvlookup.rs lines 268-277) for k
partial sum columns: the next cell of the aggregation column minus its current
cell, minus the current cell of every partial sum column. -/
def aggConstraintExpr {F : Type} (k : Nat) : E F :=
  (List.range k).foldl
    (fun acc i => E.sub acc (curr_cell (Column.LookupPartialSum i)))
    (E.sub (next_cell Column.LookupAggregation) (curr_cell Column.LookupAggregation))

/-- Body of the inner chunk loop of constraint_lookups (mvlookup.rs lines
259-265): push the combine_lookups constraint of the chunk for the current
partial sum column index and advance the index. The state is the pair of the
constraints emitted so far and the running index idx_partial_sum. -/
def chunkStep {F : Type} [Field F] (st : List (E F) × Nat)
    (chunk : List (MVLookup (E F))) : Option (List (E F) × Nat) := do
  let c ← combine_lookups (Column.LookupPartialSum st.2) chunk
  pure (st.1 ++ [c], st.2 + 1)

/-- Body of the outer table loop of constraint_lookups (mvlookup.rs lines
249-266): append the synthetic table term and run the chunk loop on the chunks
of the augmented term list. -/
def tableStep {F : Type} [Field F] (st : List (E F) × Nat)
    (p : Nat × List (MVLookup (E F))) : Option (List (E F) × Nat) :=
  (chunksOf (MAX_SUPPORTED_DEGREE - 2) (p.2 ++ [tableLookup p.1])).foldlM chunkStep st

/-- constraint_lookups (mvlookup.rs lines 244-279): for each table append the
synthetic term, emit one combine_lookups constraint per chunk of size
MAX_SUPPORTED_DEGREE - 2 with a running partial sum column index shared across
tables, then append the aggregation recurrence constraint. The map over table
identities is modelled as an association list visited in order. -/
def constraint_lookups {F : Type} [Field F]
    (lookups_map : List (Nat × List (MVLookup (E F)))) : Option (List (E F)) := do
  let st ← lookups_map.foldlM tableStep ([], 0)
  pure (st.1 ++ [aggConstraintExpr st.2])

/-- Chunk decomposition described by the specification: for each table the
synthetic term is appended and the augmented term list is cut into consecutive
chunks of size at most MAX_SUPPORTED_DEGREE - 2; the chunks of all tables are
concatenated in table order. -/
def allChunks {F : Type} [Field F]
    (lookups_map : List (Nat × List (MVLookup (E F)))) : List (List (MVLookup (E F))) :=
  lookups_map.foldr
    (fun p acc => chunksOf (MAX_SUPPORTED_DEGREE - 2) (p.2 ++ [tableLookup p.1]) ++ acc) []

/-- Combined value of one lookup term as written in the specification: the
table identity as a field constant plus the sum over the listed vector
components of the k-th power of the joint combiner times the k-th component,
the first listed component carrying the first power. -/
def specCombined {F : Type} [Field F] (env : Assignment F) (x : MVLookup (E F)) : F :=
  (x.table_id : F) +
    ∑ k in Finset.range x.value.length,
      env.joint ^ (k + 1) * E.eval env (x.value.getD k (E.lit 0))

/-- Running sum evaluations (mvlookup.rs lines 594-603): the accumulator is
pushed at each row before the partial sum evaluations of the current row are
added to it. Returns the evaluation vector and the final accumulator. -/
def lookupAggregationScan {F : Type} [Field F] (domSize : Nat) (h : List (List F)) :
    List F × F :=
  (List.range domSize).foldl
    (fun st i => (st.1 ++ [st.2], st.2 + (h.map (fun lte => lte.getD i 0)).sum))
    ([], 0)

/-- Running sum evaluations with the final zero assertion (mvlookup.rs lines
604-612): the construction aborts exactly when the final accumulator is
nonzero. -/
def lookupAggregationEvals {F : Type} [Field F] [DecidableEq F] (domSize : Nat)
    (h : List (List F)) : Option (List F) :=
  if (lookupAggregationScan domSize h).2 = 0 then
    some (lookupAggregationScan domSize h).1
  else
    none

/-- Transcript events of Env::create: absorption of a multiplicity commitment,
extraction of a challenge, absorption of a partial sum (lookup term)
commitment, absorption of a fixed table commitment, absorption of the
aggregation commitment. -/
inductive TEvent where
  | absorbMultiplicity (id : Nat)
  | drawChallenge
  | absorbTerm (k : Nat)
  | absorbFixedTable (id : Nat)
  | absorbAggregation
deriving DecidableEq, Repr

/-- Table identity of the first term of the first column of a witness, as read
by Env::create (mvlookup.rs lines 360 and 364); for a witness with no columns
the source panics, while the model returns identity zero, a case no theorem
relies on. -/
def firstTableId {F : Type} [Inhabited F] (w : LookupWitness F) : Nat :=
  ((w.f.headD []).headD ⟨0, default, []⟩).table_id

/-- Insertion of a key into a strictly ascending key list, dropping
duplicates; models the key set of a BTreeMap. -/
def insertKey (x : Nat) : List Nat → List Nat
  | [] => [x]
  | y :: ys =>
    if x < y then x :: y :: ys
    else if x = y then y :: ys
    else y :: insertKey x ys

/-- Sorted key set of a list of keys, as a BTreeMap collects them. -/
def sortedKeys (l : List Nat) : List Nat :=
  l.foldl (fun acc x => insertKey x acc) []

/-- Keys of the multiplicity map of Env::create (mvlookup.rs lines 349-374):
the first table identity of every witness whose first table identity is fixed,
collected into a BTreeMap. -/
def multIdsOf {F : Type} [Inhabited F] (isFixed : Nat → Bool)
    (lookups : List (LookupWitness F)) : List Nat :=
  sortedKeys ((lookups.filter (fun w => isFixed (firstTableId w))).map firstTableId)

/-- Fixed table identities recorded during the first pass of Env::create
(mvlookup.rs lines 454-461): for every witness and row, the table identity of
the last term column when it is fixed, collected into a BTreeMap. -/
def fixedIdsOf {F : Type} [Inhabited F] (domSize : Nat) (isFixed : Nat → Bool)
    (lookups : List (LookupWitness F)) : List Nat :=
  sortedKeys (lookups.foldr (fun w acc =>
    (if w.f.isEmpty then [] else
      (List.range domSize).filterMap (fun j =>
        let t := termAt (w.f.getD (w.f.length - 1) []) j
        if isFixed t.table_id then some t.table_id else none)) ++ acc) [])

/-- Fixed table evaluations recorded for one table identity during the first
pass of Env::create (mvlookup.rs lines 454-461): the combined values of the
last term column rows carrying that identity, in traversal order. -/
def fixedValsOf {F : Type} [Field F] [Inhabited F] (domSize : Nat) (r : F)
    (isFixed : Nat → Bool) (lookups : List (LookupWitness F)) (id : Nat) : List F :=
  lookups.foldr (fun w acc =>
    (if w.f.isEmpty then [] else
      (List.range domSize).filterMap (fun j =>
        let t := termAt (w.f.getD (w.f.length - 1) []) j
        if isFixed t.table_id && (t.table_id == id) then
          some (combinedValue r t.table_id t.value)
        else none)) ++ acc) []

/-- Observable output of the modelled Env::create: the flattened chunk
evaluation vectors, the aggregation evaluation vector and the transcript event
trace. -/
structure EnvOut (F : Type) where
  chunkEvals : List (List F)
  aggregation : List F
  trace : List TEvent
deriving DecidableEq, Repr

/-- Modelled Env::create (mvlookup.rs lines 337-644): absorb the multiplicity
commitments, draw the joint combiner and beta, compute the chunked partial
sums of every witness and the fixed table evaluations with their length
assertions (mvlookup.rs lines 506-514), absorb the term and fixed table
commitments, compute the aggregation with its final zero assertion and absorb
its commitment last. The challenges are parameters because the sponge is an
external capability; the trace records the transcript operations in source
order, and the result is none exactly when the source panics. -/
def envCreateModel {F : Type} [Field F] [Inhabited F] [DecidableEq F]
    (domSize : Nat) (r beta : F) (isFixed : Nat → Bool)
    (lookups : List (LookupWitness F)) : Option (EnvOut F) :=
  (lookups.mapM (fun w => lookupTermsEvalsOne domSize r beta w.f)).bind
    (fun perWitness =>
      let flat := perWitness.flatten
      if (flat.all (fun evals => evals.length == domSize))
          && ((fixedIdsOf domSize isFixed lookups).all
                (fun i => (fixedValsOf domSize r isFixed lookups i).length == domSize)) then
        (lookupAggregationEvals domSize flat).bind (fun agg =>
          some ⟨flat, agg,
            (multIdsOf isFixed lookups).map TEvent.absorbMultiplicity
              ++ [TEvent.drawChallenge, TEvent.drawChallenge]
              ++ (List.range flat.length).map TEvent.absorbTerm
              ++ (fixedIdsOf domSize isFixed lookups).map TEvent.absorbFixedTable
              ++ [TEvent.absorbAggregation]⟩)
      else none)

/-- LookupProof (mvlookup.rs lines 113-123): the multiplicity and fixed table
BTreeMaps are modelled as association lists strictly ascending by key. -/
structure LookupProof (T : Type) where
  m : List (Nat × T)
  h : List T
  sum : T
  fixed_tables : List (Nat × T)

/-- IntoIterator for LookupProof (mvlookup.rs lines 128-144): first the
multiplicity values, then the partial sums, then the running sum, then the
fixed table values. -/
def lookupProofIter {T : Type} (p : LookupProof T) : List T :=
  p.m.map Prod.snd ++ p.h ++ [p.sum] ++ p.fixed_tables.map Prod.snd

/-- Modelled from the spec: insertion into a BTreeMap represented as an
association list strictly ascending by key; an existing binding of the key is
replaced. -/
def btreeInsert {T : Type} (k : Nat) (v : T) : List (Nat × T) → List (Nat × T)
  | [] => [(k, v)]
  | q :: l =>
    if k < q.1 then (k, v) :: q :: l
    else if k = q.1 then (k, v) :: l
    else q :: btreeInsert k v l

/-- Modelled from the spec: a BTreeMap built by inserting the given bindings
in order. -/
def btreeOfList {T : Type} (l : List (Nat × T)) : List (Nat × T) :=
  l.foldl (fun acc q => btreeInsert q.1 q.2 acc) []

/-- Modelled from the spec: the typed error of the expression framework result
returned by the evaluation dispatch; the variants stand for a missing column
evaluation. The dispatcher never constructs them. -/
inductive ExprError where
  | missingEvaluation (col : Column)
  | missingIndexEvaluation (col : Column)
deriving DecidableEq, Repr

/-- ProofEvaluations (msm/src/proof.rs lines 61-69) restricted to the fields
the dispatcher reads: the witness evaluations, a vector of declared width N,
and the optional lookup proof section. -/
structure ProofEvaluations (N : Nat) (T : Type) where
  witness_evals : List T
  mvlookup_evals : Option (LookupProof T)

/-- Lookup of a key in a BTreeMap association list, as the Rust map index
operator; the none case is where the source panics on a missing key. -/
def assocGet {T : Type} (k : Nat) (l : List (Nat × T)) : Option T :=
  (l.find? (fun q => q.1 == k)).map Prod.snd

/-- Modelled from the spec: from_u32 on table identities; identities are
identified with their u32 encoding, so the decoding is the identity
function. -/
def fromU32 (n : Nat) : Nat := n

/-- ProofEvaluations::evaluate (msm/src/proof.rs lines 79-118). The outer
Option is none exactly where the source panics (witness index at or above the
declared width, absent lookup section, partial sum index out of bounds, or
missing map key); the inner Except is the declared Result type, whose error
variant the source never produces. -/
def ProofEvaluations.evaluate {N : Nat} {T : Type} (p : ProofEvaluations N T)
    (col : Column) : Option (Except ExprError T) :=
  match col with
  | Column.X i =>
    if i < N then (p.witness_evals.get? i).map Except.ok else none
  | Column.LookupPartialSum i =>
    match p.mvlookup_evals with
    | some lookup => (lookup.h.get? i).map Except.ok
    | none => none
  | Column.LookupAggregation =>
    match p.mvlookup_evals with
    | some lookup => some (Except.ok lookup.sum)
    | none => none
  | Column.LookupMultiplicity i =>
    match p.mvlookup_evals with
    | some lookup => (assocGet (fromU32 i) lookup.m).map Except.ok
    | none => none
  | Column.LookupFixedTable i =>
    match p.mvlookup_evals with
    | some lookup => (assocGet (fromU32 i) lookup.fixed_tables).map Except.ok
    | none => none

/-- Concrete aggregation input used by the witness of the recurrence. -/
def c3H : List (List ℚ) := [[1, 2]]

/-- Concrete lookup term list used by the witness of the combine_lookups
formula. -/
def c4Lookups : List (MVLookup (E ℚ)) :=
  [⟨2, E.lit 3, [curr_cell (Column.X 0)]⟩]

/-- Concrete assignment used by the witness of the combine_lookups formula. -/
def c4Env : Assignment ℚ :=
  ⟨fun _ _ => 5, 7, 11⟩

/-- Concrete table map used by the witness of the constraint builder
structure. -/
def c5Map : List (Nat × List (MVLookup (E ℚ))) :=
  [(1, [⟨1, E.lit 1, [curr_cell (Column.X 0)]⟩])]

/-- Concrete output of the modelled Env::create on the empty witness list,
used by the witness of the transcript order. -/
def envOut0 : EnvOut ℚ :=
  ⟨[], [], [TEvent.drawChallenge, TEvent.drawChallenge, TEvent.absorbAggregation]⟩

/-- Concrete proof evaluations used by the witness of the dispatcher
routing. -/
def c8Proof : ProofEvaluations 1 ℚ :=
  ⟨[5], some ⟨[(1, 3)], [4], 9, [(1, 8)]⟩⟩

/-- Concrete proof evaluations with an empty partial sum section, used by the
witness of the abort behaviour. -/
def c10Proof : ProofEvaluations 1 ℚ :=
  ⟨[5], some ⟨[(1, 3)], [], 9, [(1, 8)]⟩⟩

/-- Lookup section of c10Proof. -/
def c10Lp : LookupProof ℚ :=
  ⟨[(1, 3)], [], 9, [(1, 8)]⟩

/-- C1. For every witness with n term-columns, Env::create is claimed to split
the terms into ceil(n / (maxDegree - 2)) chunks using the same partition of
term indices at every domain row and to emit one evaluation vector of length
equal to the domain size per chunk. The code instead tests the chunk boundary
on the global denominator counter, so with n = 4 term columns and a domain of
size two the second row pushes a second value with chunk index one into the
single allocated chunk vector: the source panics with an index out of bounds
and the modelled computation returns none. -/
theorem c1_chunking_counter_out_of_bounds :
    lookupTermsEvalsOne 2 (0 : ℚ) 1 bugF = none := by
  decide

/-- C2. The witness bugF is balanced: every looked up value (the value zero,
looked up three times per row in table one) is present in its table with the
declared multiplicity three, so the direct fraction sum over the full domain
is zero for every choice of the challenges, and the zero sum assertion would
hold. The claim states that construction succeeds for such a witness; the
modelled Env::create instead panics in the chunk bookkeeping before ever
reaching the zero sum assertion, so the whole construction returns none. -/
theorem c2_balanced_witness_construction_panics :
    (∀ r beta : ℚ, directSumTotal 2 r beta bugF = 0)
    ∧ envCreateModel 2 (0 : ℚ) 1 (fun _ => true) [⟨bugF, [3, 3]⟩] = none := by
  constructor
  · intro r beta
    simp [directSumTotal, combinedValue, termAt, bugF, List.range_succ]
    ring
  · decide

theorem eval_foldl_mul {F : Type} [Field F] (env : Assignment F) (l : List (E F)) (a : E F) :
    E.eval env (l.foldl (fun acc x => E.mul acc x) a)
      = E.eval env a * (l.map (E.eval env)).prod := by
  induction l generalizing a with
  | nil => simp
  | cons x xs ih =>
    simp only [List.foldl_cons, List.map_cons, List.prod_cons, ih, E.eval]
    ring

theorem eval_foldl_add {F : Type} [Field F] (env : Assignment F) (l : List (E F)) (a : E F) :
    E.eval env (l.foldl E.add a) = E.eval env a + (l.map (E.eval env)).sum := by
  induction l generalizing a with
  | nil => simp
  | cons x xs ih =>
    simp only [List.foldl_cons, List.map_cons, List.sum_cons, ih, E.eval]
    ring

theorem eval_reduceAdd {F : Type} [Field F] (env : Assignment F) (l : List (E F)) :
    E.eval env (reduceAdd l) = (l.map (E.eval env)).sum := by
  cases l with
  | nil => simp [reduceAdd, E.eval]
  | cons x xs => simp [reduceAdd, eval_foldl_add, E.eval]

theorem eval_skip_fold {F : Type} [Field F] (env : Assignment F) (i : Nat)
    (l : List (Nat × E F)) (a : E F) :
    E.eval env (l.foldl (fun acc q => if i == q.1 then acc else E.mul acc q.2) a)
      = E.eval env a
          * ((l.filter (fun q => !(i == q.1))).map (fun q => E.eval env q.2)).prod := by
  induction l generalizing a with
  | nil => simp
  | cons x xs ih =>
    simp only [List.foldl_cons, List.filter_cons]
    cases h : (i == x.1) with
    | true =>
      have ha : (if true = true then a else a.mul x.2) = a := rfl
      have hb : (if (!true) = true then x :: xs.filter (fun q => !(i == q.1))
          else xs.filter (fun q => !(i == q.1))) = xs.filter (fun q => !(i == q.1)) := rfl
      rw [ha, hb]
      exact ih a
    | false =>
      have ha : (if false = true then a else a.mul x.2) = a.mul x.2 := rfl
      have hb : (if (!false) = true then x :: xs.filter (fun q => !(i == q.1))
          else xs.filter (fun q => !(i == q.1))) = x :: xs.filter (fun q => !(i == q.1)) := rfl
      rw [ha, hb, ih, List.map_cons, List.prod_cons]
      simp only [E.eval]
      ring

theorem eval_horner_fold {F : Type} [Field F] (env : Assignment F) (l : List (E F)) (a : E F) :
    E.eval env (l.foldl
        (fun acc y => E.add (E.mul acc (E.challenge ChallengeTerm.JointCombiner)) y) a)
      = (l.map (E.eval env)).foldl (fun acc y => acc * env.joint + y) (E.eval env a) := by
  induction l generalizing a with
  | nil => simp
  | cons x xs ih =>
    simp only [List.foldl_cons, List.map_cons, ih, E.eval]

theorem horner_sum {F : Type} [Field F] (r : F) (ws : List F) :
    ws.reverse.foldl (fun acc y => acc * r + y) 0
      = ∑ k in Finset.range ws.length, ws.getD k 0 * r ^ k := by
  induction ws with
  | nil => simp
  | cons w t ih =>
    rw [List.reverse_cons, List.foldl_append, ih, List.length_cons,
      Finset.sum_range_succ']
    simp only [List.foldl_cons, List.foldl_nil, List.getD_cons_succ, List.getD_cons_zero,
      pow_zero, mul_one, pow_succ]
    rw [Finset.sum_mul]
    congr 1
    exact Finset.sum_congr rfl (fun k _ => by ring)

theorem eval_combinedExpr {F : Type} [Field F] (env : Assignment F) (x : MVLookup (E F)) :
    E.eval env (combinedExpr x)
      = ∑ k in Finset.range x.value.length,
          env.joint ^ (k + 1) * E.eval env (x.value.getD k (E.lit 0)) := by
  have hmap : ∀ k, (x.value.map (E.eval env)).getD k 0
      = E.eval env (x.value.getD k (E.lit 0)) := by
    intro k
    calc (x.value.map (E.eval env)).getD k 0
        = (x.value.map (E.eval env)).getD k (E.eval env (E.lit 0)) := rfl
      _ = E.eval env (x.value.getD k (E.lit 0)) := List.getD_map _ _ _
  show E.eval env (x.value.reverse.foldl
      (fun acc y => E.add (E.mul acc (E.challenge ChallengeTerm.JointCombiner)) y)
      (E.lit 0)) * env.joint = _
  rw [eval_horner_fold]
  have h0 : E.eval env (E.lit (0 : F)) = 0 := rfl
  rw [h0, List.map_reverse, horner_sum, List.length_map, Finset.sum_mul]
  exact Finset.sum_congr rfl (fun k _ => by rw [hmap, pow_succ]; ring)

theorem eval_denominatorExpr {F : Type} [Field F] (env : Assignment F) (x : MVLookup (E F)) :
    E.eval env (denominatorExpr x) = env.beta + specCombined env x := by
  show env.beta + E.eval env (combinedExpr x) + (x.table_id : F) = _
  rw [eval_combinedExpr, specCombined]
  ring

theorem enumFrom_map_pair {A B : Type} (f : A → B) :
    ∀ (n : Nat) (l : List A),
      (l.map f).enumFrom n = (l.enumFrom n).map (fun q => (q.1, f q.2))
  | _, [] => rfl
  | n, x :: xs => by
    simp only [List.map_cons, List.enumFrom_cons, enumFrom_map_pair f (n + 1) xs]

/-- C4. combine_lookups(column, terms) returns the expression lhs - rhs where
lhs is the current cell of the column times the product of beta plus the
combined values, rhs is the sum over the terms of the numerator times the
product over all other terms of beta plus their combined values, and the
combined value of a term is its table identity as a field constant plus the
sum of the k-th power of the joint combiner times the k-th listed vector
component. The equality is stated under every assignment of the cells and the
challenges. -/
theorem c4_combine_lookups_formula {F : Type} [Field F] (env : Assignment F)
    (column : Column) (lookups : List (MVLookup (E F))) (e : E F)
    (hsome : combine_lookups column lookups = some e) :
    E.eval env e =
      env.cellVal column CurrOrNext.Curr
          * (lookups.map (fun x => env.beta + specCombined env x)).prod
        - (lookups.enum.map (fun p =>
            E.eval env p.2.numerator *
              ((lookups.enum.filter (fun q => !(p.1 == q.1))).map
                (fun q => env.beta + specCombined env q.2)).prod)).sum := by
  have he : e = combine_lookups_expr column lookups := by
    by_cases h : combineOk lookups
    · simp only [combine_lookups, h, if_true, Option.some_inj] at hsome
      exact hsome.symm
    · simp [combine_lookups, h] at hsome
  subst he
  have hd : (lookups.map denominatorExpr).map (E.eval env)
      = lookups.map (fun x => env.beta + specCombined env x) := by
    rw [List.map_map]
    exact List.map_congr_left (fun x _ => eval_denominatorExpr env x)
  have hr : (lookups.enum.map (fun p =>
        (lookups.map denominatorExpr).enum.foldl
          (fun acc q => if p.1 == q.1 then acc else E.mul acc q.2) p.2.numerator)).map
            (E.eval env)
      = lookups.enum.map (fun p =>
          E.eval env p.2.numerator *
            ((lookups.enum.filter (fun q => !(p.1 == q.1))).map
              (fun q => env.beta + specCombined env q.2)).prod) := by
    rw [List.map_map]
    apply List.map_congr_left
    intro p _
    show E.eval env ((lookups.map denominatorExpr).enum.foldl
        (fun acc q => if p.1 == q.1 then acc else E.mul acc q.2) p.2.numerator) = _
    rw [eval_skip_fold]
    congr 1
    have hden : (lookups.map denominatorExpr).enum
        = lookups.enum.map (fun q => (q.1, denominatorExpr q.2)) := by
      show (lookups.map denominatorExpr).enumFrom 0 = _
      rw [enumFrom_map_pair]
      rfl
    rw [hden, List.filter_map, List.map_map]
    have hpred : ((fun q : Nat × E F => !(p.1 == q.1))
          ∘ (fun q : Nat × MVLookup (E F) => (q.1, denominatorExpr q.2)))
        = (fun q : Nat × MVLookup (E F) => !(p.1 == q.1)) := by
      funext q
      rfl
    rw [hpred]
    refine congrArg List.prod (List.map_congr_left ?_)
    intro q _
    exact eval_denominatorExpr env q.2
  show E.eval env ((lookups.map denominatorExpr).foldl
        (fun acc x => E.mul acc x) (curr_cell column))
      - E.eval env (reduceAdd (lookups.enum.map (fun p =>
          (lookups.map denominatorExpr).enum.foldl
            (fun acc q => if p.1 == q.1 then acc else E.mul acc q.2) p.2.numerator))) = _
  rw [eval_foldl_mul, eval_reduceAdd, hd, hr]
  rfl

/-- C9. Applied to the empty list of lookup terms, combine_lookups succeeds
(the degree assertion is vacuous) and returns the current cell of the target
column minus the zero literal: the product over zero denominators is the fold
seed and the sum side defaults to the zero expression. Under every assignment
the result evaluates to the value of the column at the current row, so the
emitted constraint forces the partial sum column itself to equal zero at every
row. -/
theorem c9_combine_lookups_empty {F : Type} [Field F] (column : Column) :
    combine_lookups column ([] : List (MVLookup (E F)))
        = some (E.sub (curr_cell column) (E.lit 0))
    ∧ ∀ env : Assignment F,
        E.eval env (combine_lookups_expr column ([] : List (MVLookup (E F))))
            = env.cellVal column CurrOrNext.Curr
        ∧ (E.eval env (combine_lookups_expr column ([] : List (MVLookup (E F)))) = 0
            ↔ env.cellVal column CurrOrNext.Curr = 0) := by
  refine ⟨rfl, fun env => ?_⟩
  have h : E.eval env (combine_lookups_expr column ([] : List (MVLookup (E F))))
      = env.cellVal column CurrOrNext.Curr := by
    show E.eval env (curr_cell column) - E.eval env (E.lit 0) = _
    simp [E.eval, curr_cell]
  exact ⟨h, by rw [h]⟩

theorem enumFrom_append {A : Type} (l1 l2 : List A) :
    ∀ n, (l1 ++ l2).enumFrom n = l1.enumFrom n ++ l2.enumFrom (n + l1.length) := by
  induction l1 with
  | nil => intro n; simp
  | cons x xs ih =>
    intro n
    simp only [List.cons_append, List.enumFrom_cons, ih (n + 1), List.length_cons]
    have h : n + 1 + xs.length = n + (xs.length + 1) := by omega
    rw [h]

theorem chunk_fold_spec {F : Type} [Field F] (C : List (List (MVLookup (E F)))) :
    ∀ (cs : List (E F)) (k : Nat), (∀ c ∈ C, combineOk c = true) →
      C.foldlM chunkStep (cs, k)
        = some (cs ++ (C.enumFrom k).map
            (fun p => combine_lookups_expr (Column.LookupPartialSum p.1) p.2),
            k + C.length) := by
  induction C with
  | nil => intro cs k _; simp
  | cons c C ih =>
    intro cs k hok
    have hc : combineOk c = true := hok c (List.mem_cons_self c C)
    have hstep : chunkStep (cs, k) c
        = some (cs ++ [combine_lookups_expr (Column.LookupPartialSum k) c], k + 1) := by
      simp [chunkStep, combine_lookups, hc]
    rw [List.foldlM_cons, hstep]
    show C.foldlM chunkStep _ = _
    rw [ih _ (k + 1) (fun c' hc' => hok c' (List.mem_cons_of_mem c hc'))]
    simp only [List.enumFrom_cons, List.map_cons, Option.some_inj, Prod.mk.injEq,
      List.append_assoc, List.singleton_append, List.length_cons]
    exact ⟨by simp, by omega⟩

theorem table_fold_spec {F : Type} [Field F]
    (L : List (Nat × List (MVLookup (E F)))) :
    ∀ (cs : List (E F)) (k : Nat), (∀ c ∈ allChunks L, combineOk c = true) →
      L.foldlM tableStep (cs, k)
        = some (cs ++ ((allChunks L).enumFrom k).map
            (fun p => combine_lookups_expr (Column.LookupPartialSum p.1) p.2),
            k + (allChunks L).length) := by
  induction L with
  | nil => intro cs k _; simp [allChunks]
  | cons p L ih =>
    intro cs k hok
    have hsplit : allChunks (p :: L)
        = chunksOf (MAX_SUPPORTED_DEGREE - 2) (p.2 ++ [tableLookup p.1]) ++ allChunks L := rfl
    have hok1 : ∀ c ∈ chunksOf (MAX_SUPPORTED_DEGREE - 2) (p.2 ++ [tableLookup p.1]),
        combineOk c = true := by
      intro c hc
      exact hok c (by rw [hsplit]; exact List.mem_append_left _ hc)
    have hok2 : ∀ c ∈ allChunks L, combineOk c = true := by
      intro c hc
      exact hok c (by rw [hsplit]; exact List.mem_append_right _ hc)
    rw [List.foldlM_cons]
    have hstep : tableStep (cs, k) p
        = some (cs ++ ((chunksOf (MAX_SUPPORTED_DEGREE - 2)
              (p.2 ++ [tableLookup p.1])).enumFrom k).map
            (fun q => combine_lookups_expr (Column.LookupPartialSum q.1) q.2),
            k + (chunksOf (MAX_SUPPORTED_DEGREE - 2) (p.2 ++ [tableLookup p.1])).length) := by
      rw [tableStep]
      exact chunk_fold_spec _ cs k hok1
    rw [hstep]
    show L.foldlM tableStep _ = _
    rw [ih _ _ hok2, hsplit]
    simp only [Option.some_inj, Prod.mk.injEq, enumFrom_append, List.map_append,
      List.append_assoc, List.length_append]
    exact ⟨by simp, by omega⟩

/-- C5. constraint_lookups, visiting the tables of the association list in
order (ascending identities for a valid map), appends to each table the
synthetic multiplicity and fixed table term, cuts each augmented list into
consecutive chunks of size at most MAX_SUPPORTED_DEGREE - 2, emits one
combine_lookups constraint per chunk tied to consecutively indexed partial sum
columns starting from zero across all tables, and finally emits exactly one
aggregation recurrence constraint over every emitted index; the output is the
ordered list of all chunk constraints followed by the recurrence, of length
the total number of chunks plus one. -/
theorem c5_constraint_lookups_structure {F : Type} [Field F]
    (L : List (Nat × List (MVLookup (E F))))
    (hsorted : L.Pairwise (fun p q => p.1 < q.1))
    (hok : ∀ c ∈ allChunks L, combineOk c = true) :
    constraint_lookups L
      = some (((allChunks L).enum.map
            (fun p => combine_lookups_expr (Column.LookupPartialSum p.1) p.2))
          ++ [aggConstraintExpr (allChunks L).length])
    ∧ ∀ cs, constraint_lookups L = some cs → cs.length = (allChunks L).length + 1 := by
  have h1 := table_fold_spec L [] 0 hok
  have h2 : constraint_lookups L
      = some (((allChunks L).enum.map
            (fun p => combine_lookups_expr (Column.LookupPartialSum p.1) p.2))
          ++ [aggConstraintExpr (allChunks L).length]) := by
    rw [constraint_lookups, h1]
    show some _ = _
    simp only [Option.some_inj, List.nil_append, Nat.zero_add]
    rfl
  refine ⟨h2, fun cs hcs => ?_⟩
  rw [h2, Option.some_inj] at hcs
  subst hcs
  simp

theorem lookupAggregationScan_spec {F : Type} [Field F] (h : List (List F)) :
    ∀ m, lookupAggregationScan m h
      = ((List.range m).map (fun j =>
            ((List.range j).map (fun i => (h.map (fun c => c.getD i 0)).sum)).sum),
         ((List.range m).map (fun i => (h.map (fun c => c.getD i 0)).sum)).sum) := by
  intro m
  induction m with
  | zero => rfl
  | succ m ih =>
    have hstep : lookupAggregationScan (m + 1) h
        = ((lookupAggregationScan m h).1 ++ [(lookupAggregationScan m h).2],
           (lookupAggregationScan m h).2 + (h.map (fun c => c.getD m 0)).sum) := by
      rw [lookupAggregationScan, lookupAggregationScan, List.range_succ, List.foldl_append]
      rfl
    rw [hstep, ih]
    rw [List.range_succ, List.map_append, List.map_append, List.sum_append]
    simp

theorem getD_map_range {A : Type} (g : Nat → A) (d : A) (m j : Nat) (hj : j < m) :
    ((List.range m).map g).getD j d = g j := by
  rw [List.getD_eq_getElem?_getD, List.getElem?_map, List.getElem?_range hj]
  rfl

/-- C3. The aggregation vector phi produced by Env::create satisfies
phi[0] = 0; for every row j with j + 1 below the domain size, phi[j + 1]
equals phi[j] plus the sum of all partial sum evaluation vectors at row j; and
the value at any row below the domain size equals the sum of all partial sum
evaluations over all strictly earlier rows, the first row being the empty sum.
The vector returned by the asserted construction is the scanned vector. -/
theorem c3_aggregation_recurrence {F : Type} [Field F] [DecidableEq F]
    (domSize : Nat) (h : List (List F)) (hpos : 0 < domSize) :
    (∀ agg, lookupAggregationEvals domSize h = some agg
        → agg = (lookupAggregationScan domSize h).1)
    ∧ (lookupAggregationScan domSize h).1.getD 0 0 = 0
    ∧ (∀ j, j + 1 < domSize →
        (lookupAggregationScan domSize h).1.getD (j + 1) 0
          = (lookupAggregationScan domSize h).1.getD j 0
            + (h.map (fun c => c.getD j 0)).sum)
    ∧ (∀ j, j < domSize →
        (lookupAggregationScan domSize h).1.getD j 0
          = ((List.range j).map (fun i => (h.map (fun c => c.getD i 0)).sum)).sum) := by
  have hspec := lookupAggregationScan_spec h domSize
  have hfst : (lookupAggregationScan domSize h).1
      = (List.range domSize).map (fun j =>
          ((List.range j).map (fun i => (h.map (fun c => c.getD i 0)).sum)).sum) := by
    rw [hspec]
  refine ⟨?_, ?_, ?_, ?_⟩
  · intro agg ha
    rw [lookupAggregationEvals] at ha
    by_cases hz : (lookupAggregationScan domSize h).2 = 0
    · rw [if_pos hz, Option.some_inj] at ha
      exact ha.symm
    · rw [if_neg hz] at ha
      exact absurd ha (by simp)
  · rw [hfst, getD_map_range _ _ _ _ hpos]
    simp
  · intro j hj
    rw [hfst, getD_map_range _ _ _ _ hj, getD_map_range _ _ _ _ (by omega : j < domSize)]
    rw [List.range_succ, List.map_append, List.sum_append]
    simp
  · intro j hj
    rw [hfst, getD_map_range _ _ _ _ hj]

theorem trace_mult_before_draw (A B : List TEvent)
    (hA : ∀ e ∈ A, ∃ tid, e = TEvent.absorbMultiplicity tid)
    (hB : ∀ tid, TEvent.absorbMultiplicity tid ∉ B) :
    ∀ i j tid, (A ++ B).get? i = some TEvent.drawChallenge →
      (A ++ B).get? j = some (TEvent.absorbMultiplicity tid) → j < i := by
  intro i j tid hi hj
  have hiA : A.length ≤ i := by
    by_contra hlt
    push_neg at hlt
    rw [List.get?_append hlt] at hi
    obtain ⟨tid2, htid⟩ := hA _ (List.get?_mem hi)
    simp at htid
  have hjA : j < A.length := by
    by_contra hge
    push_neg at hge
    rw [List.get?_append_right hge] at hj
    exact hB tid (List.get?_mem hj)
  omega

/-- C6. In every completed execution of Env::create the transcript operations
occur in exactly this order: all multiplicity commitments are absorbed first,
then the two challenges (the joint combiner, then beta) are drawn, then all
partial sum commitments are absorbed, then all fixed table commitments, and
the aggregation commitment is absorbed last; moreover no challenge is drawn
before every multiplicity commitment has been absorbed. -/
theorem c6_transcript_order {F : Type} [Field F] [Inhabited F] [DecidableEq F]
    (domSize : Nat) (r beta : F) (isFixed : Nat → Bool)
    (lookups : List (LookupWitness F)) (out : EnvOut F)
    (hrun : envCreateModel domSize r beta isFixed lookups = some out) :
    out.trace =
      (multIdsOf isFixed lookups).map TEvent.absorbMultiplicity
        ++ [TEvent.drawChallenge, TEvent.drawChallenge]
        ++ (List.range out.chunkEvals.length).map TEvent.absorbTerm
        ++ (fixedIdsOf domSize isFixed lookups).map TEvent.absorbFixedTable
        ++ [TEvent.absorbAggregation]
    ∧ (∀ i j tid, out.trace.get? i = some TEvent.drawChallenge →
        out.trace.get? j = some (TEvent.absorbMultiplicity tid) → j < i) := by
  rw [envCreateModel] at hrun
  cases e1 : lookups.mapM (fun w => lookupTermsEvalsOne domSize r beta w.f) with
  | none =>
    rw [e1] at hrun
    exact absurd hrun (by simp)
  | some pw =>
    rw [e1] at hrun
    have hrun2 :
        (if (pw.flatten.all (fun evals => evals.length == domSize))
            && ((fixedIdsOf domSize isFixed lookups).all
                  (fun i => (fixedValsOf domSize r isFixed lookups i).length == domSize)) then
          (lookupAggregationEvals domSize pw.flatten).bind (fun agg =>
            some ⟨pw.flatten, agg,
              (multIdsOf isFixed lookups).map TEvent.absorbMultiplicity
                ++ [TEvent.drawChallenge, TEvent.drawChallenge]
                ++ (List.range pw.flatten.length).map TEvent.absorbTerm
                ++ (fixedIdsOf domSize isFixed lookups).map TEvent.absorbFixedTable
                ++ [TEvent.absorbAggregation]⟩)
        else none) = some out := hrun
    split at hrun2
    case isFalse => exact absurd hrun2 (by simp)
    case isTrue hcond =>
      cases e2 : lookupAggregationEvals domSize pw.flatten with
      | none =>
        rw [e2] at hrun2
        exact absurd hrun2 (by simp)
      | some agg =>
        rw [e2] at hrun2
        have hrun3 :
            some (⟨pw.flatten, agg,
              (multIdsOf isFixed lookups).map TEvent.absorbMultiplicity
                ++ [TEvent.drawChallenge, TEvent.drawChallenge]
                ++ (List.range pw.flatten.length).map TEvent.absorbTerm
                ++ (fixedIdsOf domSize isFixed lookups).map TEvent.absorbFixedTable
                ++ [TEvent.absorbAggregation]⟩ : EnvOut F) = some out := hrun2
        rw [Option.some_inj] at hrun3
        subst hrun3
        refine ⟨rfl, ?_⟩
        have hshape :
            ((multIdsOf isFixed lookups).map TEvent.absorbMultiplicity
              ++ [TEvent.drawChallenge, TEvent.drawChallenge]
              ++ (List.range pw.flatten.length).map TEvent.absorbTerm
              ++ (fixedIdsOf domSize isFixed lookups).map TEvent.absorbFixedTable
              ++ [TEvent.absorbAggregation])
            = (multIdsOf isFixed lookups).map TEvent.absorbMultiplicity
              ++ ([TEvent.drawChallenge, TEvent.drawChallenge]
                ++ ((List.range pw.flatten.length).map TEvent.absorbTerm
                  ++ ((fixedIdsOf domSize isFixed lookups).map TEvent.absorbFixedTable
                    ++ [TEvent.absorbAggregation]))) := by
          simp [List.append_assoc]
        intro i j tid hi hj
        rw [hshape] at hi hj
        refine trace_mult_before_draw _ _ ?_ ?_ i j tid hi hj
        · intro e he
          obtain ⟨tid2, _, rfl⟩ := List.mem_map.1 he
          exact ⟨tid2, rfl⟩
        · intro tid2 hmem
          simp [List.mem_append] at hmem

theorem keys_btreeInsert {T : Type} (k : Nat) (v : T) :
    ∀ (l : List (Nat × T)) (a : Nat), a ∈ (btreeInsert k v l).map Prod.fst →
      a = k ∨ a ∈ l.map Prod.fst := by
  intro l
  induction l with
  | nil =>
    intro a ha
    simp [btreeInsert] at ha
    exact Or.inl ha
  | cons q l ih =>
    intro a ha
    rw [btreeInsert] at ha
    by_cases h1 : k < q.1
    · rw [if_pos h1] at ha
      simp only [List.map_cons, List.mem_cons] at ha
      rcases ha with h | h | h
      · exact Or.inl h
      · exact Or.inr (by simp [h])
      · exact Or.inr (by rw [List.map_cons, List.mem_cons]; exact Or.inr h)
    · rw [if_neg h1] at ha
      by_cases h2 : k = q.1
      · rw [if_pos h2] at ha
        simp only [List.map_cons, List.mem_cons] at ha
        rcases ha with h | h
        · exact Or.inl h
        · exact Or.inr (by rw [List.map_cons, List.mem_cons]; exact Or.inr h)
      · rw [if_neg h2] at ha
        simp only [List.map_cons, List.mem_cons] at ha
        rcases ha with h | h
        · exact Or.inr (by simp [h])
        · rcases ih a h with h3 | h3
          · exact Or.inl h3
          · exact Or.inr (by rw [List.map_cons, List.mem_cons]; exact Or.inr h3)

theorem sorted_btreeInsert {T : Type} (k : Nat) (v : T) :
    ∀ l : List (Nat × T), ((l.map Prod.fst).Sorted (· < ·)) →
      ((btreeInsert k v l).map Prod.fst).Sorted (· < ·) := by
  intro l
  induction l with
  | nil =>
    intro _
    simp [btreeInsert]
  | cons q l ih =>
    intro hl
    rw [List.map_cons, List.sorted_cons] at hl
    obtain ⟨hq, hl2⟩ := hl
    rw [btreeInsert]
    by_cases h1 : k < q.1
    · rw [if_pos h1, List.map_cons, List.sorted_cons]
      refine ⟨?_, ?_⟩
      · intro b hb
        rw [List.map_cons, List.mem_cons] at hb
        rcases hb with h | h
        · omega
        · have := hq b h
          omega
      · rw [List.map_cons, List.sorted_cons]
        exact ⟨hq, hl2⟩
    · rw [if_neg h1]
      by_cases h2 : k = q.1
      · rw [if_pos h2, List.map_cons, List.sorted_cons]
        subst h2
        exact ⟨hq, hl2⟩
      · rw [if_neg h2, List.map_cons, List.sorted_cons]
        refine ⟨?_, ih hl2⟩
        intro b hb
        rcases keys_btreeInsert k v l b hb with h3 | h3
        · omega
        · exact hq b h3

theorem sorted_btreeOfList_aux {T : Type} (l : List (Nat × T)) :
    ∀ acc : List (Nat × T), ((acc.map Prod.fst).Sorted (· < ·)) →
      (((l.foldl (fun acc q => btreeInsert q.1 q.2 acc) acc).map Prod.fst).Sorted (· < ·)) := by
  induction l with
  | nil => intro acc hacc; exact hacc
  | cons q l ih =>
    intro acc hacc
    exact ih _ (sorted_btreeInsert q.1 q.2 acc hacc)

theorem sorted_btreeOfList {T : Type} (l : List (Nat × T)) :
    ((btreeOfList l).map Prod.fst).Sorted (· < ·) :=
  sorted_btreeOfList_aux l [] (by simp)

/-- C7. Iterating a LookupProof yields exactly the multiplicity values, then
the partial sum values in index order, then the running sum, then the fixed
table values; the two map sections iterate in strictly ascending key order for
maps built by insertion in any order, and since the construction and the
traversal are pure functions, two values built from identical inputs produce
identical iteration order. -/
theorem c7_lookup_proof_iteration {T : Type} (ms fs : List (Nat × T))
    (h : List T) (s : T) :
    lookupProofIter ⟨btreeOfList ms, h, s, btreeOfList fs⟩
      = (btreeOfList ms).map Prod.snd ++ h ++ [s] ++ (btreeOfList fs).map Prod.snd
    ∧ ((btreeOfList ms).map Prod.fst).Sorted (· < ·)
    ∧ ((btreeOfList fs).map Prod.fst).Sorted (· < ·) :=
  ⟨rfl, sorted_btreeOfList ms, sorted_btreeOfList fs⟩

/-- C8. The evaluation dispatcher returns the witness evaluation at index i
for the column X(i) when i is below the declared width N and aborts when i is
at or above N; for the four lookup columns it aborts when no lookup proof
section is present, and otherwise returns h[i], the running sum, the
multiplicity map entry keyed by the decoded identity, and the fixed table map
entry keyed by the decoded identity, respectively. -/
theorem c8_evaluate_dispatch {N : Nat} {T : Type} (p : ProofEvaluations N T)
    (hlen : p.witness_evals.length = N) :
    (∀ i, i < N → ∃ v, p.witness_evals.get? i = some v
        ∧ p.evaluate (Column.X i) = some (Except.ok v))
    ∧ (∀ i, N ≤ i → p.evaluate (Column.X i) = none)
    ∧ (p.mvlookup_evals = none →
        (∀ i, p.evaluate (Column.LookupPartialSum i) = none)
        ∧ p.evaluate Column.LookupAggregation = none
        ∧ (∀ i, p.evaluate (Column.LookupMultiplicity i) = none)
        ∧ (∀ i, p.evaluate (Column.LookupFixedTable i) = none))
    ∧ (∀ lp, p.mvlookup_evals = some lp →
        (∀ i, p.evaluate (Column.LookupPartialSum i) = (lp.h.get? i).map Except.ok)
        ∧ p.evaluate Column.LookupAggregation = some (Except.ok lp.sum)
        ∧ (∀ i, p.evaluate (Column.LookupMultiplicity i)
            = (assocGet (fromU32 i) lp.m).map Except.ok)
        ∧ (∀ i, p.evaluate (Column.LookupFixedTable i)
            = (assocGet (fromU32 i) lp.fixed_tables).map Except.ok)) := by
  refine ⟨?_, ?_, ?_, ?_⟩
  · intro i hi
    have hlt : i < p.witness_evals.length := by omega
    refine ⟨p.witness_evals[i], ?_, ?_⟩
    · rw [List.get?_eq_getElem?, List.getElem?_eq_getElem hlt]
    · rw [ProofEvaluations.evaluate, if_pos hi, List.get?_eq_getElem?,
        List.getElem?_eq_getElem hlt]
      rfl
  · intro i hi
    rw [ProofEvaluations.evaluate, if_neg (by omega)]
  · intro hnone
    refine ⟨fun i => ?_, ?_, fun i => ?_, fun i => ?_⟩ <;>
      simp [ProofEvaluations.evaluate, hnone]
  · intro lp hsome
    refine ⟨fun i => ?_, ?_, fun i => ?_, fun i => ?_⟩ <;>
      simp [ProofEvaluations.evaluate, hsome]

/-- C10. The evaluation dispatcher never returns the error variant of its
declared Result type: every call either returns Ok or aborts; in particular,
with a lookup section present, a partial sum index at or above the length of h
aborts, and a multiplicity or fixed table identity missing from the
corresponding map aborts, rather than yielding a recoverable error value. -/
theorem c10_evaluate_never_errs {N : Nat} {T : Type} :
    (∀ (p : ProofEvaluations N T) (col : Column) (err : ExprError),
        ¬ p.evaluate col = some (Except.error err))
    ∧ (∀ (p : ProofEvaluations N T) (lp : LookupProof T) (i : Nat),
        p.mvlookup_evals = some lp → lp.h.length ≤ i →
        p.evaluate (Column.LookupPartialSum i) = none)
    ∧ (∀ (p : ProofEvaluations N T) (lp : LookupProof T) (i : Nat),
        p.mvlookup_evals = some lp → assocGet (fromU32 i) lp.m = none →
        p.evaluate (Column.LookupMultiplicity i) = none)
    ∧ (∀ (p : ProofEvaluations N T) (lp : LookupProof T) (i : Nat),
        p.mvlookup_evals = some lp → assocGet (fromU32 i) lp.fixed_tables = none →
        p.evaluate (Column.LookupFixedTable i) = none) := by
  refine ⟨?_, ?_, ?_, ?_⟩
  · intro p col err heq
    cases col with
    | X i =>
      by_cases h : i < N
      · rw [ProofEvaluations.evaluate, if_pos h] at heq
        rw [Option.map_eq_some'] at heq
        obtain ⟨a, _, ha⟩ := heq
        exact absurd ha (by simp)
      · rw [ProofEvaluations.evaluate, if_neg h] at heq
        exact absurd heq (by simp)
    | LookupPartialSum i =>
      cases hm : p.mvlookup_evals with
      | none => simp [ProofEvaluations.evaluate, hm] at heq
      | some lp =>
        simp only [ProofEvaluations.evaluate, hm, Option.map_eq_some'] at heq
        obtain ⟨a, _, ha⟩ := heq
        exact absurd ha (by simp)
    | LookupAggregation =>
      cases hm : p.mvlookup_evals with
      | none => simp [ProofEvaluations.evaluate, hm] at heq
      | some lp => simp [ProofEvaluations.evaluate, hm] at heq
    | LookupMultiplicity i =>
      cases hm : p.mvlookup_evals with
      | none => simp [ProofEvaluations.evaluate, hm] at heq
      | some lp =>
        simp only [ProofEvaluations.evaluate, hm, Option.map_eq_some'] at heq
        obtain ⟨a, _, ha⟩ := heq
        exact absurd ha (by simp)
    | LookupFixedTable i =>
      cases hm : p.mvlookup_evals with
      | none => simp [ProofEvaluations.evaluate, hm] at heq
      | some lp =>
        simp only [ProofEvaluations.evaluate, hm, Option.map_eq_some'] at heq
        obtain ⟨a, _, ha⟩ := heq
        exact absurd ha (by simp)
  · intro p lp i hsome hlen
    have : lp.h.get? i = none := by
      rw [List.get?_eq_getElem?, List.getElem?_eq_none_iff]
      omega
    simp [ProofEvaluations.evaluate, hsome, this, hlen]
  · intro p lp i hsome hget
    simp [ProofEvaluations.evaluate, hsome, hget]
  · intro p lp i hsome hget
    simp [ProofEvaluations.evaluate, hsome, hget]

theorem c3_aggregation_recurrence_witness :
    (0 : Nat) < 2
    ∧ ((∀ agg, lookupAggregationEvals 2 c3H = some agg
          → agg = (lookupAggregationScan 2 c3H).1)
      ∧ (lookupAggregationScan 2 c3H).1.getD 0 0 = 0
      ∧ (∀ j, j + 1 < 2 →
          (lookupAggregationScan 2 c3H).1.getD (j + 1) 0
            = (lookupAggregationScan 2 c3H).1.getD j 0
              + (c3H.map (fun c => c.getD j 0)).sum)
      ∧ (∀ j, j < 2 →
          (lookupAggregationScan 2 c3H).1.getD j 0
            = ((List.range j).map (fun i => (c3H.map (fun c => c.getD i 0)).sum)).sum)) :=
  ⟨by decide, c3_aggregation_recurrence 2 c3H (by decide)⟩

theorem c4_combine_lookups_formula_witness :
    combine_lookups (Column.LookupPartialSum 0) c4Lookups
        = some (combine_lookups_expr (Column.LookupPartialSum 0) c4Lookups)
    ∧ E.eval c4Env (combine_lookups_expr (Column.LookupPartialSum 0) c4Lookups) =
        c4Env.cellVal (Column.LookupPartialSum 0) CurrOrNext.Curr
            * (c4Lookups.map (fun x => c4Env.beta + specCombined c4Env x)).prod
          - (c4Lookups.enum.map (fun p =>
              E.eval c4Env p.2.numerator *
                ((c4Lookups.enum.filter (fun q => !(p.1 == q.1))).map
                  (fun q => c4Env.beta + specCombined c4Env q.2)).prod)).sum :=
  ⟨rfl, c4_combine_lookups_formula c4Env (Column.LookupPartialSum 0) c4Lookups
    (combine_lookups_expr (Column.LookupPartialSum 0) c4Lookups) rfl⟩

theorem c5_constraint_lookups_structure_witness :
    List.Pairwise (fun p q => p.1 < q.1) c5Map
    ∧ (∀ c ∈ allChunks c5Map, combineOk c = true)
    ∧ (constraint_lookups c5Map
        = some (((allChunks c5Map).enum.map
              (fun p => combine_lookups_expr (Column.LookupPartialSum p.1) p.2))
            ++ [aggConstraintExpr (allChunks c5Map).length])
      ∧ ∀ cs, constraint_lookups c5Map = some cs
          → cs.length = (allChunks c5Map).length + 1) :=
  ⟨by simp [c5Map], by decide,
    c5_constraint_lookups_structure c5Map (by simp [c5Map]) (by decide)⟩

theorem c6_transcript_order_witness :
    envCreateModel 0 (0 : ℚ) 0 (fun _ => false) [] = some envOut0
    ∧ (envOut0.trace =
        (multIdsOf (fun _ => false) ([] : List (LookupWitness ℚ))).map
            TEvent.absorbMultiplicity
          ++ [TEvent.drawChallenge, TEvent.drawChallenge]
          ++ (List.range envOut0.chunkEvals.length).map TEvent.absorbTerm
          ++ (fixedIdsOf 0 (fun _ => false) ([] : List (LookupWitness ℚ))).map
              TEvent.absorbFixedTable
          ++ [TEvent.absorbAggregation]
      ∧ (∀ i j tid, envOut0.trace.get? i = some TEvent.drawChallenge →
          envOut0.trace.get? j = some (TEvent.absorbMultiplicity tid) → j < i)) :=
  ⟨by decide, c6_transcript_order 0 (0 : ℚ) 0 (fun _ => false) [] envOut0 (by decide)⟩

theorem c8_evaluate_dispatch_witness :
    c8Proof.witness_evals.length = 1
    ∧ ((∀ i, i < 1 → ∃ v, c8Proof.witness_evals.get? i = some v
          ∧ c8Proof.evaluate (Column.X i) = some (Except.ok v))
      ∧ (∀ i, 1 ≤ i → c8Proof.evaluate (Column.X i) = none)
      ∧ (c8Proof.mvlookup_evals = none →
          (∀ i, c8Proof.evaluate (Column.LookupPartialSum i) = none)
          ∧ c8Proof.evaluate Column.LookupAggregation = none
          ∧ (∀ i, c8Proof.evaluate (Column.LookupMultiplicity i) = none)
          ∧ (∀ i, c8Proof.evaluate (Column.LookupFixedTable i) = none))
      ∧ (∀ lp, c8Proof.mvlookup_evals = some lp →
          (∀ i, c8Proof.evaluate (Column.LookupPartialSum i)
              = (lp.h.get? i).map Except.ok)
          ∧ c8Proof.evaluate Column.LookupAggregation = some (Except.ok lp.sum)
          ∧ (∀ i, c8Proof.evaluate (Column.LookupMultiplicity i)
              = (assocGet (fromU32 i) lp.m).map Except.ok)
          ∧ (∀ i, c8Proof.evaluate (Column.LookupFixedTable i)
              = (assocGet (fromU32 i) lp.fixed_tables).map Except.ok))) :=
  ⟨rfl, c8_evaluate_dispatch c8Proof rfl⟩

theorem c10_evaluate_never_errs_witness :
    c10Proof.mvlookup_evals = some c10Lp
    ∧ c10Lp.h.length ≤ 3
    ∧ c10Proof.evaluate (Column.LookupPartialSum 3) = none :=
  ⟨rfl, by decide,
    (@c10_evaluate_never_errs 1 ℚ).2.1 c10Proof c10Lp 3 rfl (by decide)⟩

